import Mathlib

/-!
Shallow embedding of the trie-ferris library (src/lib.rs) and proofs of the
specified properties.  The Rust `HashMap<char, TNode>` children map is
modelled as an association list with unique keys; `setChild` is the in-place
entry write and `removeChild` is `HashMap::remove`.
-/

set_option autoImplicit false

namespace TrieFerris

/-- A trie node, mirroring `TNode` in the source: `value` is the character of
the incoming edge (NUL sentinel for the root), `is_end` marks that the path
from the root to this node spells a stored word, `children` is the map from
characters to child nodes. -/
inductive TNode : Type where
  | mk : Char → Bool → List (Char × TNode) → TNode

def TNode.value : TNode → Char
  | .mk v _ _ => v

def TNode.is_end : TNode → Bool
  | .mk _ e _ => e

def TNode.children : TNode → List (Char × TNode)
  | .mk _ _ cs => cs

/-- Rust `TNode::new`. -/
def TNode.new (value : Char) (is_end : Bool) : TNode :=
  .mk value is_end []

/-- Rust `children.get(&c)`: the binding for key `c` (keys are unique). -/
def findChild : List (Char × TNode) → Char → Option TNode
  | [], _ => none
  | (k, v) :: rest, c => if k = c then some v else findChild rest c

/-- Rust `TNode::get_mut`: the looked-up child; mutation through the reference is
modelled by `setChild` / `removeChild` at the call sites. -/
def TNode.get_mut (n : TNode) (c : Char) : Option TNode :=
  findChild n.children c

/-- Rust `TNode::is_empty`. -/
def TNode.is_empty (n : TNode) : Bool :=
  !n.is_end && n.children.isEmpty

/-- In-place write of key `c` (a `HashMap` entry write): replace the binding
if present, append it otherwise. -/
def setChild : List (Char × TNode) → Char → TNode → List (Char × TNode)
  | [], c, x => [(c, x)]
  | (k, v) :: rest, c, x =>
      if k = c then (c, x) :: rest else (k, v) :: setChild rest c x

/-- Rust `HashMap::remove` for key `c` (keys are unique). -/
def removeChild (cs : List (Char × TNode)) (c : Char) : List (Char × TNode) :=
  cs.filter (fun p => decide (p.1 ≠ c))

/-- The `Trie` owns the root node. -/
structure Trie : Type where
  root : TNode

/-- Rust `Trie::new`. -/
def Trie.new : Trie :=
  { root := TNode.new (Char.ofNat 0) false }

/-- Rust `Trie::insert_rec`: consume one character per call, creating the child on
first visit (`entry(c).or_insert_with`); set `is_end` once the word is
exhausted. -/
def Trie.insert_rec : TNode → List Char → TNode
  | node, [] => .mk node.value true node.children
  | node, c :: rest =>
      let child :=
        match findChild node.children c with
        | some ch => ch
        | none => TNode.new c false
      .mk node.value node.is_end (setChild node.children c (Trie.insert_rec child rest))

/-- Rust `Trie::insert`. -/
def Trie.insert (t : Trie) (w : List Char) : Trie :=
  if w.isEmpty then t else { root := Trie.insert_rec t.root w }

/-- The cursor walk of `Trie::insert_iter`: for each character, `or_insert`
the child and descend; after the loop set `is_end` on the final node. -/
def Trie.insert_go : TNode → List Char → TNode
  | node, [] => .mk node.value true node.children
  | node, c :: rest =>
      let next := (TNode.get_mut node c).getD (TNode.new c false)
      .mk node.value node.is_end (setChild node.children c (Trie.insert_go next rest))

/-- Rust `Trie::insert_iter`. -/
def Trie.insert_iter (t : Trie) (w : List Char) : Trie :=
  if w.isEmpty then t else { root := Trie.insert_go t.root w }

/-- The walk of `Trie::contains` from a given node. -/
def containsNode : TNode → List Char → Bool
  | node, [] => node.is_end
  | node, c :: rest =>
      match findChild node.children c with
      | some next => containsNode next rest
      | none => false

/-- Rust `Trie::contains`. -/
def Trie.contains (t : Trie) (w : List Char) : Bool :=
  containsNode t.root w

/-- Rust `Trie::delete_rec` (depth-indexed): returns the updated node and the flag
telling the caller to remove this child from its map. -/
def Trie.delete_rec (node : TNode) (word : List Char) (depth : Nat) : TNode × Bool :=
  if _hgt : depth > word.length then (node, false)
  else if _heq : depth = word.length then
    let node2 := if node.is_end then TNode.mk node.value false node.children else node
    (node2, node2.is_empty)
  else
    let current := word.getD depth (Char.ofNat 0)
    match TNode.get_mut node current with
    | some next =>
        let r := Trie.delete_rec next word (depth + 1)
        let cs := if r.2 then removeChild node.children current
                  else setChild node.children current r.1
        let node2 := TNode.mk node.value node.is_end cs
        (node2, node2.is_empty)
    | none => (node, false)
termination_by word.length - depth
decreasing_by
  simp_wf
  omega

/-- Rust `Trie::delete`. -/
def Trie.delete (t : Trie) (w : List Char) : Trie :=
  { root := (Trie.delete_rec t.root w 0).1 }

/-- Rust `Trie::deleto_rec` (successive-character recursion).  In the source,
`maybe_next` chains `word.next()` with the child lookup, so both an exhausted
word and a missing child fall through to the epilogue that clears `is_end`. -/
def Trie.deleto_rec : TNode → List Char → TNode × Bool
  | node, [] =>
      let node2 := if node.is_end then TNode.mk node.value false node.children else node
      (node2, node2.is_empty)
  | node, c :: rest =>
      match TNode.get_mut node c with
      | some next =>
          let r := Trie.deleto_rec next rest
          let cs := if r.2 then removeChild node.children c
                    else setChild node.children c r.1
          let node2 := TNode.mk node.value node.is_end cs
          (node2, node2.is_empty)
      | none =>
          let node2 := if node.is_end then TNode.mk node.value false node.children else node
          (node2, node2.is_empty)

/-- Rust `Trie::delete_2`. -/
def Trie.delete_2 (t : Trie) (w : List Char) : Trie :=
  if w.isEmpty then t else { root := (Trie.deleto_rec t.root w).1 }

/-- Rust `Trie::clear`: drop all children of the root; the root node persists. -/
def Trie.clear (t : Trie) : Trie :=
  { root := TNode.mk t.root.value t.root.is_end [] }

/-- Function `delete_rec` reformulated by structural recursion on the remaining suffix
`word[depth..]`; `delete_rec_eq_delAux` proves it equal to `delete_rec`. -/
def delAux : TNode → List Char → TNode × Bool
  | node, [] =>
      let node2 := if node.is_end then TNode.mk node.value false node.children else node
      (node2, node2.is_empty)
  | node, c :: rest =>
      match TNode.get_mut node c with
      | some next =>
          let r := delAux next rest
          let cs := if r.2 then removeChild node.children c
                    else setChild node.children c r.1
          let node2 := TNode.mk node.value node.is_end cs
          (node2, node2.is_empty)
      | none => (node, false)

/-- The mutating operations of the public API (spec section 6):
`insert`, `insert_iter`, `delete`, `clear`.  `contains` does not mutate. -/
inductive Op : Type where
  | insert (w : List Char)
  | insert_iter (w : List Char)
  | delete (w : List Char)
  | clear
deriving DecidableEq

def applyOp (t : Trie) : Op → Trie
  | .insert w => t.insert w
  | .insert_iter w => t.insert_iter w
  | .delete w => t.delete w
  | .clear => t.clear

def runOps (t : Trie) : List Op → Trie
  | [] => t
  | op :: rest => runOps (applyOp t op) rest

/-- Presence of a path of characters below a node, regardless of end
markers (used to state that shared nodes survive a delete). -/
def pathNode : TNode → List Char → Bool
  | _, [] => true
  | node, c :: rest =>
      match findChild node.children c with
      | some next => pathNode next rest
      | none => false

/-- The root sentinel as constructed by `Trie::new`: NUL value and a false
end marker.  Every reachable trie keeps this shape of the root. -/
def RootOk (t : Trie) : Prop :=
  t.root.value = Char.ofNat 0 ∧ t.root.is_end = false

/-- The pruning invariant: every node strictly below the given one is
non-empty (`TNode::is_empty` is false).  Applied to the root it says that no
node other than the root is empty. -/
inductive TNode.Inv : TNode → Prop where
  | intro (v : Char) (e : Bool) (cs : List (Char × TNode))
      (h1 : ∀ p ∈ cs, p.2.is_empty = false)
      (h2 : ∀ p ∈ cs, TNode.Inv p.2) :
      TNode.Inv (.mk v e cs)

theorem TNode.Inv.elim_mem {n : TNode} (h : TNode.Inv n) :
    ∀ p ∈ n.children, p.2.is_empty = false ∧ TNode.Inv p.2 := by
  cases h with
  | intro v e cs h1 h2 => exact fun p hp => ⟨h1 p hp, h2 p hp⟩

theorem TNode.Inv.of_children {n : TNode}
    (h : ∀ p ∈ n.children, p.2.is_empty = false ∧ TNode.Inv p.2) :
    TNode.Inv n := by
  cases n with
  | mk v e cs => exact .intro v e cs (fun p hp => (h p hp).1) (fun p hp => (h p hp).2)

@[simp] theorem TNode.value_mk (v : Char) (e : Bool) (cs : List (Char × TNode)) :
    (TNode.mk v e cs).value = v := rfl

@[simp] theorem TNode.is_end_mk (v : Char) (e : Bool) (cs : List (Char × TNode)) :
    (TNode.mk v e cs).is_end = e := rfl

@[simp] theorem TNode.children_mk (v : Char) (e : Bool) (cs : List (Char × TNode)) :
    (TNode.mk v e cs).children = cs := rfl

theorem findChild_setChild_self (cs : List (Char × TNode)) (c : Char) (x : TNode) :
    findChild (setChild cs c x) c = some x := by
  induction cs with
  | nil => simp [setChild, findChild]
  | cons p rest ih =>
      obtain ⟨k, v⟩ := p
      by_cases h : k = c
      · simp [setChild, h, findChild]
      · simp [setChild, h, findChild, ih]

theorem findChild_setChild_ne (cs : List (Char × TNode)) (c d : Char) (x : TNode)
    (h : d ≠ c) : findChild (setChild cs c x) d = findChild cs d := by
  have hcd : ¬ c = d := fun hh => h hh.symm
  induction cs with
  | nil => simp [setChild, findChild, hcd]
  | cons p rest ih =>
      obtain ⟨k, v⟩ := p
      by_cases hk : k = c
      · subst hk
        simp [setChild, findChild, hcd]
      · by_cases hkd : k = d
        · subst hkd
          simp [setChild, hk, findChild]
        · simp [setChild, hk, findChild, hkd, ih]

theorem findChild_removeChild_self (cs : List (Char × TNode)) (c : Char) :
    findChild (removeChild cs c) c = none := by
  induction cs with
  | nil => rfl
  | cons p rest ih =>
      obtain ⟨k, v⟩ := p
      by_cases h : k = c
      · simpa [removeChild, List.filter_cons, h] using ih
      · simpa [removeChild, List.filter_cons, h, findChild] using ih

theorem findChild_removeChild_ne (cs : List (Char × TNode)) (c d : Char)
    (h : d ≠ c) : findChild (removeChild cs c) d = findChild cs d := by
  induction cs with
  | nil => rfl
  | cons p rest ih =>
      obtain ⟨k, v⟩ := p
      by_cases hk : k = c
      · subst hk
        have hcd : ¬ k = d := fun hh => h hh.symm
        simpa [removeChild, List.filter_cons, findChild, hcd] using ih
      · by_cases hkd : k = d
        · subst hkd
          simp [removeChild, List.filter_cons, hk, findChild]
        · simpa [removeChild, List.filter_cons, hk, findChild, hkd] using ih

theorem setChild_findChild_some (cs : List (Char × TNode)) (c : Char) (v : TNode)
    (h : findChild cs c = some v) : setChild cs c v = cs := by
  induction cs with
  | nil => simp [findChild] at h
  | cons p rest ih =>
      obtain ⟨k, x⟩ := p
      by_cases hk : k = c
      · subst hk
        simp [findChild] at h
        simp [setChild, h]
      · simp [findChild, hk] at h
        simp [setChild, hk, ih h]

theorem setChild_setChild (cs : List (Char × TNode)) (c : Char) (x y : TNode) :
    setChild (setChild cs c x) c y = setChild cs c y := by
  induction cs with
  | nil => simp [setChild]
  | cons p rest ih =>
      obtain ⟨k, v⟩ := p
      by_cases h : k = c
      · simp [setChild, h]
      · simp [setChild, h, ih]

theorem setChild_ne_nil (cs : List (Char × TNode)) (c : Char) (x : TNode) :
    setChild cs c x ≠ [] := by
  cases cs with
  | nil => simp [setChild]
  | cons p rest =>
      obtain ⟨k, v⟩ := p
      by_cases h : k = c <;> simp [setChild, h]

theorem mem_setChild (cs : List (Char × TNode)) (c : Char) (x : TNode)
    (p : Char × TNode) (hp : p ∈ setChild cs c x) : p = (c, x) ∨ p ∈ cs := by
  induction cs with
  | nil =>
      simp [setChild] at hp
      exact Or.inl hp
  | cons q rest ih =>
      obtain ⟨k, v⟩ := q
      by_cases h : k = c
      · simp [setChild, h] at hp
        rcases hp with hp | hp
        · exact Or.inl hp
        · exact Or.inr (List.mem_cons_of_mem _ hp)
      · simp [setChild, h] at hp
        rcases hp with hp | hp
        · exact Or.inr (by simp [hp])
        · rcases ih hp with hh | hh
          · exact Or.inl hh
          · exact Or.inr (List.mem_cons_of_mem _ hh)

theorem mem_removeChild (cs : List (Char × TNode)) (c : Char)
    (p : Char × TNode) (hp : p ∈ removeChild cs c) : p ∈ cs :=
  (List.mem_filter.1 hp).1

theorem findChild_mem (cs : List (Char × TNode)) (c : Char) (n : TNode)
    (h : findChild cs c = some n) : (c, n) ∈ cs := by
  induction cs with
  | nil => simp [findChild] at h
  | cons p rest ih =>
      obtain ⟨k, v⟩ := p
      by_cases hk : k = c
      · subst hk
        simp [findChild] at h
        simp [h]
      · simp [findChild, hk] at h
        exact List.mem_cons_of_mem _ (ih h)

@[simp] theorem containsNode_nil (n : TNode) : containsNode n [] = n.is_end := rfl

theorem containsNode_cons (n : TNode) (c : Char) (rest : List Char) :
    containsNode n (c :: rest) =
      match findChild n.children c with
      | some next => containsNode next rest
      | none => false := rfl

theorem containsNode_of_is_empty (n : TNode) (h : n.is_empty = true)
    (x : List Char) : containsNode n x = false := by
  cases n with
  | mk v e cs =>
      simp [TNode.is_empty, List.isEmpty_iff] at h
      obtain ⟨he, hcs⟩ := h
      subst hcs
      cases x with
      | nil => simpa using he
      | cons c rest => simp [containsNode, findChild]

theorem containsNode_fresh (v : Char) (x : List Char) :
    containsNode (TNode.mk v false []) x = false := by
  cases x with
  | nil => rfl
  | cons c rest => simp [containsNode, findChild]

theorem containsNode_insert_rec (w : List Char) :
    ∀ (n : TNode) (x : List Char),
      containsNode (Trie.insert_rec n w) x =
        if x = w then true else containsNode n x := by
  induction w with
  | nil =>
      intro n x
      cases n with
      | mk v e cs =>
          cases x with
          | nil => simp [Trie.insert_rec, containsNode]
          | cons c xs => simp [Trie.insert_rec, containsNode]
  | cons c rest ih =>
      intro n x
      cases n with
      | mk v e cs =>
          cases x with
          | nil => simp [Trie.insert_rec, containsNode]
          | cons d xs =>
              by_cases hdc : d = c
              · subst hdc
                by_cases hxr : xs = rest
                · subst hxr
                  simp [Trie.insert_rec, containsNode, findChild_setChild_self, ih]
                · have hne : ¬ (d :: xs = d :: rest) := by simp [hxr]
                  rcases hfc : findChild cs d with _ | ch
                  · simp [Trie.insert_rec, hfc, containsNode, findChild_setChild_self,
                      ih, hxr, hne, TNode.new, containsNode_fresh]
                  · simp [Trie.insert_rec, hfc, containsNode, findChild_setChild_self,
                      ih, hxr, hne]
              · have hne : ¬ (d :: xs = c :: rest) := by simp [hdc]
                simp [Trie.insert_rec, containsNode,
                  findChild_setChild_ne cs c d _ hdc, hne]

theorem insert_rec_value (w : List Char) (n : TNode) :
    (Trie.insert_rec n w).value = n.value := by
  cases n with
  | mk v e cs => cases w <;> simp [Trie.insert_rec]

theorem insert_rec_is_end_cons (c : Char) (rest : List Char) (n : TNode) :
    (Trie.insert_rec n (c :: rest)).is_end = n.is_end := by
  cases n with
  | mk v e cs => simp [Trie.insert_rec]

theorem is_empty_mk_setChild (v : Char) (e : Bool) (cs : List (Char × TNode))
    (c : Char) (x : TNode) : (TNode.mk v e (setChild cs c x)).is_empty = false := by
  cases h : setChild cs c x with
  | nil => exact absurd h (setChild_ne_nil cs c x)
  | cons q qs => simp [TNode.is_empty, h]

theorem insert_rec_not_empty (w : List Char) (n : TNode) :
    (Trie.insert_rec n w).is_empty = false := by
  cases n with
  | mk v e cs =>
      cases w with
      | nil => simp [Trie.insert_rec, TNode.is_empty]
      | cons c rest => simp [Trie.insert_rec, is_empty_mk_setChild]

theorem insert_go_eq_insert_rec (w : List Char) :
    ∀ n : TNode, Trie.insert_go n w = Trie.insert_rec n w := by
  induction w with
  | nil => intro n; rfl
  | cons c rest ih =>
      intro n
      rcases hfc : findChild n.children c with _ | ch <;>
        simp [Trie.insert_go, Trie.insert_rec, TNode.get_mut, hfc, ih]

theorem insert_iter_eq_insert (t : Trie) (w : List Char) :
    t.insert_iter w = t.insert w := by
  cases w with
  | nil => rfl
  | cons c rest => simp [Trie.insert_iter, Trie.insert, insert_go_eq_insert_rec]

theorem getElem?_of_drop (w : List Char) :
    ∀ (d : Nat) (c : Char) (rest : List Char),
      w.drop d = c :: rest → w[d]? = some c := by
  induction w with
  | nil => intro d c rest h; simp at h
  | cons a as ih =>
      intro d c rest h
      cases d with
      | zero =>
          simp at h
          simp [h.1]
      | succ d =>
          simp [List.drop_succ_cons] at h
          simpa using ih d c rest h

theorem drop_succ_of_drop (w : List Char) :
    ∀ (d : Nat) (c : Char) (rest : List Char),
      w.drop d = c :: rest → w.drop (d + 1) = rest := by
  induction w with
  | nil => intro d c rest h; simp at h
  | cons a as ih =>
      intro d c rest h
      cases d with
      | zero =>
          simp at h
          simp [List.drop_succ_cons, h.2]
      | succ d =>
          simp [List.drop_succ_cons] at h
          simpa [List.drop_succ_cons] using ih d c rest h

theorem delete_rec_eq_delAux (l : List Char) :
    ∀ (w : List Char) (n : TNode) (d : Nat),
      d ≤ w.length → w.drop d = l → Trie.delete_rec n w d = delAux n l := by
  induction l with
  | nil =>
      intro w n d hle hdrop
      have hd : d = w.length := by
        have := List.drop_eq_nil_iff.mp hdrop
        omega
      rw [Trie.delete_rec]
      simp [hd, delAux]
  | cons c rest ih =>
      intro w n d hle hdrop
      have hlt : d < w.length := by
        rcases Nat.lt_or_ge d w.length with h | h
        · exact h
        · rw [List.drop_eq_nil_iff.mpr h] at hdrop
          simp at hdrop
      have hcur : w[d]? = some c := getElem?_of_drop w d c rest hdrop
      have hnext : w.drop (d + 1) = rest := drop_succ_of_drop w d c rest hdrop
      have h1 : ¬ (d > w.length) := by omega
      have h2 : ¬ (d = w.length) := by omega
      rcases hm : TNode.get_mut n c with _ | next
      · rw [Trie.delete_rec]
        simp [h1, h2, hcur, hm, delAux]
      · rw [Trie.delete_rec]
        simp [h1, h2, hcur, hm, delAux,
          ih w next (d + 1) (by omega) hnext]

theorem delete_eq_delAux (t : Trie) (w : List Char) :
    Trie.delete t w = { root := (delAux t.root w).1 } := by
  unfold Trie.delete
  rw [delete_rec_eq_delAux w w t.root 0 (Nat.zero_le _) (by simp)]

theorem delAux_snd_empty (l : List Char) (n : TNode)
    (h : (delAux n l).2 = true) : (delAux n l).1.is_empty = true := by
  cases l with
  | nil => simpa [delAux] using h
  | cons c rest =>
      rcases hm : TNode.get_mut n c with _ | next
      · simp [delAux, hm] at h
      · simpa [delAux, hm] using h

theorem delAux_nil_eq (n : TNode) :
    delAux n [] =
      (if n.is_end then TNode.mk n.value false n.children else n,
       (if n.is_end then TNode.mk n.value false n.children else n).is_empty) := rfl

theorem delAux_cons_none (n : TNode) (c : Char) (rest : List Char)
    (hm : TNode.get_mut n c = none) : delAux n (c :: rest) = (n, false) := by
  simp [delAux, hm]

theorem delAux_cons_some_keep (n : TNode) (c : Char) (rest : List Char)
    (next : TNode) (hm : TNode.get_mut n c = some next)
    (hb : (delAux next rest).2 = false) :
    delAux n (c :: rest) =
      (TNode.mk n.value n.is_end (setChild n.children c (delAux next rest).1),
       (TNode.mk n.value n.is_end
          (setChild n.children c (delAux next rest).1)).is_empty) := by
  simp [delAux, hm, hb]

theorem delAux_cons_some_remove (n : TNode) (c : Char) (rest : List Char)
    (next : TNode) (hm : TNode.get_mut n c = some next)
    (hb : (delAux next rest).2 = true) :
    delAux n (c :: rest) =
      (TNode.mk n.value n.is_end (removeChild n.children c),
       (TNode.mk n.value n.is_end (removeChild n.children c)).is_empty) := by
  simp [delAux, hm, hb]

theorem containsNode_delAux (l : List Char) :
    ∀ (n : TNode) (x : List Char),
      containsNode (delAux n l).1 x =
        if x = l then false else containsNode n x := by
  induction l with
  | nil =>
      intro n x
      rw [delAux_nil_eq]
      cases n with
      | mk v e cs =>
          cases x with
          | nil => cases e <;> simp [containsNode]
          | cons d xs => cases e <;> simp [containsNode]
  | cons c rest ih =>
      intro n x
      cases n with
      | mk v e cs =>
          rcases hm : findChild cs c with _ | child
          · rw [delAux_cons_none (TNode.mk v e cs) c rest
              (by simpa [TNode.get_mut] using hm)]
            by_cases hx : x = c :: rest
            · subst hx
              simp [containsNode, hm]
            · simp [hx]
          · cases hb : (delAux child rest).2 with
            | false =>
                rw [delAux_cons_some_keep (TNode.mk v e cs) c rest child
                  (by simpa [TNode.get_mut] using hm) hb]
                cases x with
                | nil => simp [containsNode]
                | cons d xs =>
                    by_cases hdc : d = c
                    · subst hdc
                      simp [containsNode, findChild_setChild_self, ih, hm]
                    · simp [containsNode, findChild_setChild_ne cs c d _ hdc, hdc]
            | true =>
                have hemp : (delAux child rest).1.is_empty = true :=
                  delAux_snd_empty rest child hb
                rw [delAux_cons_some_remove (TNode.mk v e cs) c rest child
                  (by simpa [TNode.get_mut] using hm) hb]
                cases x with
                | nil => simp [containsNode]
                | cons d xs =>
                    by_cases hdc : d = c
                    · subst hdc
                      by_cases hxr : xs = rest
                      · subst hxr
                        simp [containsNode, findChild_removeChild_self]
                      · have hdead : containsNode child xs = false := by
                          have h1 := ih child xs
                          rw [if_neg hxr] at h1
                          rw [← h1]
                          exact containsNode_of_is_empty _ hemp xs
                        simp [containsNode, findChild_removeChild_self, hxr,
                          hdead, hm]
                    · simp [containsNode, findChild_removeChild_ne cs c d hdc, hdc]

theorem delAux_noop (l : List Char) :
    ∀ n : TNode, TNode.Inv n → containsNode n l = false →
      (delAux n l).1 = n ∧ ((delAux n l).2 = true → n.is_empty = true) := by
  induction l with
  | nil =>
      intro n hinv hc
      have he : n.is_end = false := by simpa using hc
      constructor
      · simp [delAux, he]
      · intro h
        simpa [delAux, he] using h
  | cons c rest ih =>
      intro n hinv hc
      cases n with
      | mk v e cs =>
          rcases hm : findChild cs c with _ | child
          · constructor
            · simp [delAux, TNode.get_mut, hm]
            · intro h
              simp [delAux, TNode.get_mut, hm] at h
          · have hmem : (c, child) ∈ cs := findChild_mem cs c child hm
            have hchild := hinv.elim_mem (c, child) (by simpa using hmem)
            have hcc : containsNode child rest = false := by
              simpa [containsNode, hm] using hc
            obtain ⟨h1, h2⟩ := ih child hchild.2 hcc
            have hr2 : (delAux child rest).2 = false := by
              cases hb : (delAux child rest).2 with
              | false => rfl
              | true => exact absurd (h2 hb) (by simp [hchild.1])
            have hset : setChild cs c (delAux child rest).1 = cs := by
              rw [h1]
              exact setChild_findChild_some cs c child hm
            constructor
            · simp [delAux, TNode.get_mut, hm, hr2, hset]
            · intro h
              simpa [delAux, TNode.get_mut, hm, hr2, hset] using h

theorem delAux_inv (l : List Char) :
    ∀ n : TNode, TNode.Inv n →
      TNode.Inv (delAux n l).1 ∧
      ((delAux n l).1.is_empty = true →
        (delAux n l).2 = true ∨ n.is_empty = true) := by
  induction l with
  | nil =>
      intro n hinv
      rw [delAux_nil_eq]
      cases n with
      | mk v e cs =>
          cases e with
          | false => exact ⟨hinv, fun h => Or.inl h⟩
          | true =>
              constructor
              · apply TNode.Inv.of_children
                intro p hp
                exact hinv.elim_mem p hp
              · exact fun h => Or.inl h
  | cons c rest ih =>
      intro n hinv
      cases n with
      | mk v e cs =>
          rcases hm : findChild cs c with _ | child
          · rw [delAux_cons_none (TNode.mk v e cs) c rest
              (by simpa [TNode.get_mut] using hm)]
            exact ⟨hinv, fun h => Or.inr h⟩
          · have hmem : (c, child) ∈ cs := findChild_mem cs c child hm
            have hchild := hinv.elim_mem (c, child) hmem
            obtain ⟨ihInv, ihComp⟩ := ih child hchild.2
            cases hb : (delAux child rest).2 with
            | false =>
                have hne : (delAux child rest).1.is_empty = false := by
                  cases hie : (delAux child rest).1.is_empty with
                  | false => rfl
                  | true =>
                      rcases ihComp hie with hgone | hwas
                      · rw [hb] at hgone
                        exact absurd hgone (by simp)
                      · exact absurd hwas (by simp [hchild.1])
                rw [delAux_cons_some_keep (TNode.mk v e cs) c rest child
                  (by simpa [TNode.get_mut] using hm) hb]
                constructor
                · apply TNode.Inv.of_children
                  intro p hp
                  rcases mem_setChild cs c (delAux child rest).1 p hp with hp | hp
                  · rw [hp]
                    exact ⟨hne, ihInv⟩
                  · exact hinv.elim_mem p hp
                · exact fun h => Or.inl h
            | true =>
                rw [delAux_cons_some_remove (TNode.mk v e cs) c rest child
                  (by simpa [TNode.get_mut] using hm) hb]
                constructor
                · apply TNode.Inv.of_children
                  intro p hp
                  exact hinv.elim_mem p (mem_removeChild cs c p hp)
                · exact fun h => Or.inl h

theorem delAux_idem (l : List Char) :
    ∀ n : TNode,
      (delAux (delAux n l).1 l).1 = (delAux n l).1 ∧
      ((delAux (delAux n l).1 l).2 = true → (delAux n l).2 = true) := by
  induction l with
  | nil =>
      intro n
      cases n with
      | mk v e cs => cases e <;> simp [delAux]
  | cons c rest ih =>
      intro n
      cases n with
      | mk v e cs =>
          rcases hm : findChild cs c with _ | child
          · simp [delAux, TNode.get_mut, hm]
          · rcases hb : (delAux child rest).2 with _ | _
            · -- kept: the second pass visits the updated child again
              obtain ⟨ih1, ih2⟩ := ih child
              have hr2 : (delAux (delAux child rest).1 rest).2 = false := by
                cases hq : (delAux (delAux child rest).1 rest).2 with
                | false => rfl
                | true =>
                    rw [ih2 hq] at hb
                    exact absurd hb (by simp)
              simp [delAux, TNode.get_mut, hm, hb, findChild_setChild_self,
                hr2, ih1, setChild_setChild]
            · -- removed: the second pass dead-ends at the missing child
              simp [delAux, TNode.get_mut, hm, hb, findChild_removeChild_self]

theorem delAux_value (l : List Char) (n : TNode) :
    (delAux n l).1.value = n.value := by
  cases l with
  | nil =>
      rw [delAux_nil_eq]
      by_cases he : n.is_end = true <;> simp [he]
  | cons c rest =>
      rcases hm : TNode.get_mut n c with _ | child
      · rw [delAux_cons_none n c rest hm]
      · cases hb : (delAux child rest).2 with
        | false =>
            rw [delAux_cons_some_keep n c rest child hm hb]
            rfl
        | true =>
            rw [delAux_cons_some_remove n c rest child hm hb]
            rfl

theorem delAux_is_end_false (l : List Char) (n : TNode)
    (h : n.is_end = false) : (delAux n l).1.is_end = false := by
  cases l with
  | nil =>
      rw [delAux_nil_eq]
      simp [h]
  | cons c rest =>
      rcases hm : TNode.get_mut n c with _ | child
      · rw [delAux_cons_none n c rest hm]
        exact h
      · cases hb : (delAux child rest).2 with
        | false =>
            rw [delAux_cons_some_keep n c rest child hm hb]
            simpa using h
        | true =>
            rw [delAux_cons_some_remove n c rest child hm hb]
            simpa using h

theorem contains_delete (t : Trie) (v w : List Char) :
    (t.delete v).contains w = if w = v then false else t.contains w := by
  rw [delete_eq_delAux]
  exact containsNode_delAux v t.root w

theorem contains_insert (t : Trie) (v w : List Char) (hv : v ≠ []) :
    (t.insert v).contains w = if w = v then true else t.contains w := by
  have hne : v.isEmpty = false := by
    cases v with
    | nil => exact absurd rfl hv
    | cons c rest => rfl
  simp [Trie.insert, hne, Trie.contains, containsNode_insert_rec]

theorem insert_nil (t : Trie) : t.insert [] = t := rfl

theorem insert_iter_nil (t : Trie) : t.insert_iter [] = t := rfl

theorem contains_insert_iter (t : Trie) (v w : List Char) (hv : v ≠ []) :
    (t.insert_iter v).contains w = if w = v then true else t.contains w := by
  rw [insert_iter_eq_insert]
  exact contains_insert t v w hv

theorem contains_clear (t : Trie) (w : List Char) :
    (t.clear).contains w = if w = [] then t.root.is_end else false := by
  cases w with
  | nil => simp [Trie.clear, Trie.contains, containsNode]
  | cons c rest => simp [Trie.clear, Trie.contains, containsNode, findChild]

theorem contains_new (w : List Char) : Trie.new.contains w = false := by
  cases w with
  | nil => rfl
  | cons c rest => rfl

theorem delete_nil_of_root (t : Trie) (h : t.root.is_end = false) :
    t.delete [] = t := by
  rw [delete_eq_delAux, delAux_nil_eq]
  simp [h]

theorem contains_applyOp_true (u : Trie) (w : List Char) (op : Op)
    (h1 : op ≠ Op.delete w) (h2 : op ≠ Op.clear)
    (h : u.contains w = true) : (applyOp u op).contains w = true := by
  cases op with
  | insert v =>
      by_cases hv : v = []
      · subst hv
        simpa [applyOp, insert_nil] using h
      · show (u.insert v).contains w = true
        rw [contains_insert u v w hv]
        by_cases hwv : w = v <;> simp [hwv, h]
  | insert_iter v =>
      by_cases hv : v = []
      · subst hv
        simpa [applyOp, insert_iter_nil] using h
      · show (u.insert_iter v).contains w = true
        rw [contains_insert_iter u v w hv]
        by_cases hwv : w = v <;> simp [hwv, h]
  | delete v =>
      have hwv : ¬ (w = v) := fun hh => h1 (congrArg Op.delete hh.symm)
      show (u.delete v).contains w = true
      rw [contains_delete u v w, if_neg hwv]
      exact h
  | clear => exact absurd rfl h2

theorem contains_runOps_true (ops : List Op) :
    ∀ (u : Trie) (w : List Char), u.contains w = true →
      (∀ op ∈ ops, op ≠ Op.delete w ∧ op ≠ Op.clear) →
      (runOps u ops).contains w = true := by
  induction ops with
  | nil => intro u w h _; exact h
  | cons op rest ih =>
      intro u w h hops
      have h1 := hops op (List.mem_cons_self op rest)
      exact ih (applyOp u op) w
        (contains_applyOp_true u w op h1.1 h1.2 h)
        (fun o ho => hops o (List.mem_cons_of_mem _ ho))

theorem contains_applyOp_inserted (u : Trie) (op : Op) (w : List Char)
    (h : (applyOp u op).contains w = true) :
    u.contains w = true ∨ op = Op.insert w ∨ op = Op.insert_iter w := by
  cases op with
  | insert v =>
      by_cases hv : v = []
      · subst hv
        exact Or.inl (by simpa [applyOp, insert_nil] using h)
      · replace h : (u.insert v).contains w = true := h
        rw [contains_insert u v w hv] at h
        by_cases hwv : w = v
        · subst hwv
          exact Or.inr (Or.inl rfl)
        · rw [if_neg hwv] at h
          exact Or.inl h
  | insert_iter v =>
      by_cases hv : v = []
      · subst hv
        exact Or.inl (by simpa [applyOp, insert_iter_nil] using h)
      · replace h : (u.insert_iter v).contains w = true := h
        rw [contains_insert_iter u v w hv] at h
        by_cases hwv : w = v
        · subst hwv
          exact Or.inr (Or.inr rfl)
        · rw [if_neg hwv] at h
          exact Or.inl h
  | delete v =>
      replace h : (u.delete v).contains w = true := h
      rw [contains_delete u v w] at h
      by_cases hwv : w = v
      · rw [if_pos hwv] at h
        exact absurd h (by simp)
      · rw [if_neg hwv] at h
        exact Or.inl h
  | clear =>
      replace h : (u.clear).contains w = true := h
      rw [contains_clear u w] at h
      by_cases hw : w = []
      · subst hw
        rw [if_pos rfl] at h
        exact Or.inl h
      · rw [if_neg hw] at h
        exact absurd h (by simp)

theorem contains_runOps_inserted (ops : List Op) :
    ∀ (u : Trie) (w : List Char), (runOps u ops).contains w = true →
      u.contains w = true ∨ Op.insert w ∈ ops ∨ Op.insert_iter w ∈ ops := by
  induction ops with
  | nil => intro u w h; exact Or.inl h
  | cons op rest ih =>
      intro u w h
      rcases ih (applyOp u op) w h with h1 | h1 | h1
      · rcases contains_applyOp_inserted u op w h1 with h2 | h2 | h2
        · exact Or.inl h2
        · exact Or.inr (Or.inl (by simp [h2]))
        · exact Or.inr (Or.inr (by simp [h2]))
      · exact Or.inr (Or.inl (List.mem_cons_of_mem _ h1))
      · exact Or.inr (Or.inr (List.mem_cons_of_mem _ h1))

theorem rootOk_insert (t : Trie) (v : List Char) (h : RootOk t) :
    RootOk (t.insert v) := by
  obtain ⟨hval, hend⟩ := h
  cases v with
  | nil => exact ⟨hval, hend⟩
  | cons c rest =>
      refine ⟨?_, ?_⟩
      · show (Trie.insert_rec t.root (c :: rest)).value = Char.ofNat 0
        rw [insert_rec_value]
        exact hval
      · show (Trie.insert_rec t.root (c :: rest)).is_end = false
        rw [insert_rec_is_end_cons]
        exact hend

theorem rootOk_delete (t : Trie) (v : List Char) (h : RootOk t) :
    RootOk (t.delete v) := by
  obtain ⟨hval, hend⟩ := h
  rw [delete_eq_delAux]
  refine ⟨?_, ?_⟩
  · show (delAux t.root v).1.value = Char.ofNat 0
    rw [delAux_value]
    exact hval
  · show (delAux t.root v).1.is_end = false
    exact delAux_is_end_false v t.root hend

theorem rootOk_clear (t : Trie) (h : RootOk t) : RootOk (t.clear) :=
  ⟨h.1, h.2⟩

theorem rootOk_applyOp (t : Trie) (op : Op) (h : RootOk t) :
    RootOk (applyOp t op) := by
  cases op with
  | insert v => exact rootOk_insert t v h
  | insert_iter v =>
      rw [show applyOp t (Op.insert_iter v) = t.insert_iter v from rfl,
        insert_iter_eq_insert]
      exact rootOk_insert t v h
  | delete v => exact rootOk_delete t v h
  | clear => exact rootOk_clear t h

theorem rootOk_runOps (ops : List Op) :
    ∀ t : Trie, RootOk t → RootOk (runOps t ops) := by
  induction ops with
  | nil => intro t h; exact h
  | cons op rest ih => intro t h; exact ih (applyOp t op) (rootOk_applyOp t op h)

theorem rootOk_new : RootOk Trie.new := ⟨rfl, rfl⟩

theorem inv_nil_children (v : Char) (e : Bool) : TNode.Inv (TNode.mk v e []) :=
  .intro v e [] (by simp) (by simp)

theorem inv_insert_rec (w : List Char) :
    ∀ n : TNode, TNode.Inv n → TNode.Inv (Trie.insert_rec n w) := by
  induction w with
  | nil =>
      intro n hinv
      apply TNode.Inv.of_children
      intro p hp
      exact hinv.elim_mem p hp
  | cons c rest ih =>
      intro n hinv
      rcases hm : findChild n.children c with _ | ch
      · have hgoal : Trie.insert_rec n (c :: rest) =
            TNode.mk n.value n.is_end
              (setChild n.children c (Trie.insert_rec (TNode.new c false) rest)) := by
          simp [Trie.insert_rec, hm]
        rw [hgoal]
        apply TNode.Inv.of_children
        intro p hp
        rcases mem_setChild _ _ _ p hp with hp | hp
        · rw [hp]
          exact ⟨insert_rec_not_empty rest _, ih _ (inv_nil_children c false)⟩
        · exact hinv.elim_mem p hp
      · have hgoal : Trie.insert_rec n (c :: rest) =
            TNode.mk n.value n.is_end
              (setChild n.children c (Trie.insert_rec ch rest)) := by
          simp [Trie.insert_rec, hm]
        rw [hgoal]
        have hch := hinv.elim_mem (c, ch) (findChild_mem _ _ _ hm)
        apply TNode.Inv.of_children
        intro p hp
        rcases mem_setChild _ _ _ p hp with hp | hp
        · rw [hp]
          exact ⟨insert_rec_not_empty rest _, ih _ hch.2⟩
        · exact hinv.elim_mem p hp

theorem inv_insert (t : Trie) (v : List Char) (h : TNode.Inv t.root) :
    TNode.Inv (t.insert v).root := by
  cases v with
  | nil => exact h
  | cons c rest =>
      show TNode.Inv (Trie.insert_rec t.root (c :: rest))
      exact inv_insert_rec (c :: rest) t.root h

theorem inv_delete (t : Trie) (v : List Char) (h : TNode.Inv t.root) :
    TNode.Inv (t.delete v).root := by
  rw [delete_eq_delAux]
  exact (delAux_inv v t.root h).1

theorem inv_applyOp (t : Trie) (op : Op) (h : TNode.Inv t.root) :
    TNode.Inv (applyOp t op).root := by
  cases op with
  | insert v => exact inv_insert t v h
  | insert_iter v =>
      rw [show applyOp t (Op.insert_iter v) = t.insert_iter v from rfl,
        insert_iter_eq_insert]
      exact inv_insert t v h
  | delete v => exact inv_delete t v h
  | clear => exact inv_nil_children _ _

theorem inv_runOps (ops : List Op) :
    ∀ t : Trie, TNode.Inv t.root → TNode.Inv (runOps t ops).root := by
  induction ops with
  | nil => intro t h; exact h
  | cons op rest ih => intro t h; exact ih (applyOp t op) (inv_applyOp t op h)

theorem inv_new : TNode.Inv Trie.new.root := inv_nil_children _ _

theorem pathNode_of_containsNode :
    ∀ (p : List Char) (n : TNode) (s : List Char),
      containsNode n (p ++ s) = true → pathNode n p = true := by
  intro p
  induction p with
  | nil => intro n s h; rfl
  | cons c ps ih =>
      intro n s h
      cases n with
      | mk v e cs =>
          rcases hm : findChild cs c with _ | next
          · simp [containsNode, hm] at h
          · simp only [List.cons_append, containsNode, TNode.children_mk, hm] at h
            simp only [pathNode, TNode.children_mk, hm]
            exact ih next s h

/-- C1: the claim that the depth-indexed delete (`delete` / `delete_rec`) and
the successive-character delete (`delete_2` / `deleto_rec`) always produce
identical trees is false on this code.  With only the word "a" stored,
deleting the word "ab" is a no-op for `delete`, but `delete_2` clears
`is_end` of node 'a' (its `maybe_next` chain conflates an exhausted word
with a missing child) and prunes it, losing the stored word "a".  This
theorem evaluates both strategies at that input. -/
theorem C1_delete_strategies_diverge :
    (Trie.new.insert ['a']).delete ['a', 'b'] = Trie.new.insert ['a'] ∧
    ((Trie.new.insert ['a']).delete ['a', 'b']).contains ['a'] = true ∧
    ((Trie.new.insert ['a']).delete_2 ['a', 'b']).contains ['a'] = false ∧
    (Trie.new.insert ['a']).delete_2 ['a', 'b'] ≠
      (Trie.new.insert ['a']).delete ['a', 'b'] := by
  have h1 : (Trie.new.insert ['a']).delete ['a', 'b'] = Trie.new.insert ['a'] := by
    rw [delete_eq_delAux]
    rfl
  have h2 : ((Trie.new.insert ['a']).delete_2 ['a', 'b']).contains ['a'] = false := by
    rfl
  refine ⟨h1, by rw [h1]; rfl, h2, ?_⟩
  intro hcontra
  rw [hcontra, h1] at h2
  exact absurd h2 (by decide)

/-- C2: deleting a word that is not contained (path absent, or present but
not marked as an end) is a no-op: the tree is unchanged and so is every
membership.  The trie states quantified over are the reachable ones — every
state produced by a sequence of API operations from `Trie::new`. -/
theorem C2_delete_uninserted_noop (ops : List Op) (w : List Char)
    (h : (runOps Trie.new ops).contains w = false) :
    (runOps Trie.new ops).delete w = runOps Trie.new ops ∧
    (∀ v, ((runOps Trie.new ops).delete w).contains v =
      (runOps Trie.new ops).contains v) := by
  have hinv : TNode.Inv (runOps Trie.new ops).root :=
    inv_runOps ops Trie.new inv_new
  have heq : (runOps Trie.new ops).delete w = runOps Trie.new ops := by
    rw [delete_eq_delAux]
    rw [(delAux_noop w (runOps Trie.new ops).root hinv h).1]
  exact ⟨heq, fun v => by rw [heq]⟩

theorem C2_witness :
    (runOps Trie.new [Op.insert ['a', 'b']]).delete ['a'] =
      runOps Trie.new [Op.insert ['a', 'b']] ∧
    (∀ v, ((runOps Trie.new [Op.insert ['a', 'b']]).delete ['a']).contains v =
      (runOps Trie.new [Op.insert ['a', 'b']]).contains v) :=
  C2_delete_uninserted_noop [Op.insert ['a', 'b']] ['a'] (by decide)

/-- C3: for a non-empty word W, contains(W) is true immediately after
insert(W) and stays true across any further API operations that are neither
delete(W) itself nor clear(). -/
theorem C3_contains_stable (t : Trie) (w : List Char) (ops : List Op)
    (hw : w ≠ [])
    (hops : ∀ op ∈ ops, op ≠ Op.delete w ∧ op ≠ Op.clear) :
    (runOps (t.insert w) ops).contains w = true := by
  have hbase : (t.insert w).contains w = true := by
    rw [contains_insert t w w hw]
    simp
  exact contains_runOps_true ops (t.insert w) w hbase hops

theorem C3_witness :
    (runOps (Trie.new.insert ['a'])
      [Op.insert ['b'], Op.delete ['b']]).contains ['a'] = true :=
  C3_contains_stable Trie.new ['a'] [Op.insert ['b'], Op.delete ['b']]
    (by decide) (by decide)

/-- C4: contains is true only for explicitly inserted words; in particular a
word that is a strict prefix of a contained word but was never inserted
itself is not contained. -/
theorem C4_contains_only_inserted (ops : List Op) (p : List Char) :
    ((∃ v s, s ≠ [] ∧ p ++ s = v ∧ (runOps Trie.new ops).contains v = true) →
      Op.insert p ∉ ops → Op.insert_iter p ∉ ops →
      (runOps Trie.new ops).contains p = false) ∧
    ((runOps Trie.new ops).contains p = true →
      Op.insert p ∈ ops ∨ Op.insert_iter p ∈ ops) := by
  have hmain : (runOps Trie.new ops).contains p = true →
      Op.insert p ∈ ops ∨ Op.insert_iter p ∈ ops := by
    intro h
    rcases contains_runOps_inserted ops Trie.new p h with h1 | h1 | h1
    · rw [contains_new p] at h1
      exact absurd h1 (by simp)
    · exact Or.inl h1
    · exact Or.inr h1
  refine ⟨?_, hmain⟩
  intro _ hni hnii
  cases hc : (runOps Trie.new ops).contains p with
  | false => rfl
  | true =>
      rcases hmain hc with h1 | h1
      · exact absurd h1 hni
      · exact absurd h1 hnii

theorem C4_witness :
    (runOps Trie.new [Op.insert ['c', 'a', 't']]).contains ['c', 'a'] = false :=
  (C4_contains_only_inserted [Op.insert ['c', 'a', 't']] ['c', 'a']).1
    ⟨['c', 'a', 't'], ['t'], by decide, rfl, by decide⟩ (by decide) (by decide)

/-- C5: deleting a stored word W that is a strict prefix of another stored
word V makes contains(W) false, keeps contains(V) true, and keeps every
prefix path of V present in the tree. -/
theorem C5_delete_strict_pre (t : Trie) (w v : List Char)
    (_hw : t.contains w = true) (hv : t.contains v = true)
    (hpre : ∃ s, s ≠ [] ∧ w ++ s = v) :
    (t.delete w).contains w = false ∧
    (t.delete w).contains v = true ∧
    (∀ p s, p ++ s = v → pathNode (t.delete w).root p = true) := by
  obtain ⟨s, hs, hws⟩ := hpre
  have hne : ¬ (v = w) := by
    intro hh
    have hlen := congrArg List.length hws
    rw [hh, List.length_append] at hlen
    have hz : s.length = 0 := by omega
    exact hs (List.eq_nil_of_length_eq_zero hz)
  have h1 : (t.delete w).contains w = false := by
    rw [contains_delete t w w]
    simp
  have h2 : (t.delete w).contains v = true := by
    rw [contains_delete t w v, if_neg hne]
    exact hv
  refine ⟨h1, h2, ?_⟩
  intro p s2 hp
  exact pathNode_of_containsNode p (t.delete w).root s2 (by rw [hp]; exact h2)

theorem C5_witness :
    (((Trie.new.insert ['c', 'a', 't']).insert
        ['c', 'a', 't', 'c', 'h']).delete ['c', 'a', 't']).contains
      ['c', 'a', 't'] = false ∧
    (((Trie.new.insert ['c', 'a', 't']).insert
        ['c', 'a', 't', 'c', 'h']).delete ['c', 'a', 't']).contains
      ['c', 'a', 't', 'c', 'h'] = true :=
  ⟨(C5_delete_strict_pre
      ((Trie.new.insert ['c', 'a', 't']).insert ['c', 'a', 't', 'c', 'h'])
      ['c', 'a', 't'] ['c', 'a', 't', 'c', 'h'] (by decide) (by decide)
      ⟨['c', 'h'], by decide, rfl⟩).1,
   (C5_delete_strict_pre
      ((Trie.new.insert ['c', 'a', 't']).insert ['c', 'a', 't', 'c', 'h'])
      ['c', 'a', 't'] ['c', 'a', 't', 'c', 'h'] (by decide) (by decide)
      ⟨['c', 'h'], by decide, rfl⟩).2.1⟩

/-- C6: after every completed API operation no node other than the root is
empty (is_end false with no children), and inserting only "coal" then
deleting "coal" leaves the root with no children. -/
theorem C6_pruning_invariant :
    (∀ ops : List Op, TNode.Inv (runOps Trie.new ops).root) ∧
    ((Trie.new.insert ['c', 'o', 'a', 'l']).delete
      ['c', 'o', 'a', 'l']).root.children = [] := by
  refine ⟨fun ops => inv_runOps ops Trie.new inv_new, ?_⟩
  rw [delete_eq_delAux]
  rfl

/-- C7: after any sequence of API operations the root's is_end flag is
false, the empty string is not contained, and inserting or deleting the
empty string leaves the trie unchanged. -/
theorem C7_root_invariant (ops : List Op) :
    (runOps Trie.new ops).root.is_end = false ∧
    (runOps Trie.new ops).contains [] = false ∧
    (runOps Trie.new ops).insert [] = runOps Trie.new ops ∧
    (runOps Trie.new ops).delete [] = runOps Trie.new ops := by
  have hroot := rootOk_runOps ops Trie.new rootOk_new
  exact ⟨hroot.2, hroot.2, insert_nil _, delete_nil_of_root _ hroot.2⟩

/-- C8: clear resets any reachable trie to the freshly constructed state:
the result equals `Trie.new`, every membership is false, and the root
persists with is_end false and no children. -/
theorem C8_clear_resets (ops : List Op) :
    (runOps Trie.new ops).clear = Trie.new ∧
    (∀ w, ((runOps Trie.new ops).clear).contains w = false) ∧
    ((runOps Trie.new ops).clear).root.is_end = false ∧
    ((runOps Trie.new ops).clear).root.children = [] := by
  have hroot := rootOk_runOps ops Trie.new rootOk_new
  have heq : (runOps Trie.new ops).clear = Trie.new := by
    show Trie.mk (TNode.mk (runOps Trie.new ops).root.value
      (runOps Trie.new ops).root.is_end []) = Trie.new
    rw [hroot.1, hroot.2]
    rfl
  refine ⟨heq, fun w => by rw [heq]; exact contains_new w,
    by rw [heq]; rfl, by rw [heq]; rfl⟩

/-- C9: delete is idempotent on every trie state: deleting the same word
twice in a row yields the same tree as deleting it once. -/
theorem C9_delete_idempotent (t : Trie) (w : List Char) :
    (t.delete w).delete w = t.delete w := by
  rw [delete_eq_delAux t w]
  rw [delete_eq_delAux ({ root := (delAux t.root w).1 } : Trie) w]
  show Trie.mk (delAux (delAux t.root w).1 w).1 = Trie.mk (delAux t.root w).1
  rw [(delAux_idem w t.root).1]

/-- C10: the recursive insert and the iterative insert_iter produce
identical trees for every trie state and every word. -/
theorem C10_insert_eq_insert_iter (t : Trie) (w : List Char) :
    t.insert w = t.insert_iter w :=
  (insert_iter_eq_insert t w).symm

end TrieFerris
